import Mathlib

/-!
# GitPulse: verifying the specification against a shallow embedding of the code

This development embeds the parts of the GitPulse pipeline that the
specification's testable properties talk about: the heuristic grouper
(`internal/grouper`), the watcher's ignore filter (`internal/watcher`),
the AI refine/review/fix stages (`internal/ai`), the history store paths
(`internal/store`), and the engine's flush/trigger/review-loop logic
(`internal/engine`, `main.go`).

Go strings are modelled as Lean `String` (lists of characters); machine
integers do not overflow in any of the embedded code paths, so `Nat`/`Int`
are used directly.  External effects (the LLM HTTP transport, the VCS and
the file system) are passed in explicitly as oracle values or association
lists, so every embedded function is executable.
-/

namespace GitPulse

/-! ## Go standard-library helpers (`strings`, `path/filepath`)

These model the exact stdlib calls the source makes, for clean relative
slash-separated paths (`filepath.Clean`'s collapsing of `//` and `..`
segments is not exercised by the repository and is not modelled). -/

/-- Go `strings.HasSuffix s suf`. -/
def goHasSuffix (s suf : String) : Bool :=
  suf.data.isSuffixOf s.data

/-- Go `strings.TrimSuffix s suf`: drops one trailing occurrence of `suf`. -/
def goTrimSuffix (s suf : String) : String :=
  if goHasSuffix s suf then String.mk (s.data.take (s.data.length - suf.data.length))
  else s

/-- Index of the last occurrence of `c`, if any. -/
def lastIdxOf (c : Char) : List Char → Option Nat
  | [] => none
  | a :: as =>
    match lastIdxOf c as with
    | some i => some (i + 1)
    | none => if a = c then some 0 else none

/-- Go `filepath.Dir`: everything before the last slash (`"."` when there is
no slash, `"/"` for a path in the root directory). -/
def goDir (p : String) : String :=
  match lastIdxOf '/' p.data with
  | none => "."
  | some 0 => "/"
  | some i => String.mk (p.data.take i)

/-- Drop trailing occurrences of `c`. -/
def dropTrailing (c : Char) (l : List Char) : List Char :=
  (l.reverse.dropWhile (fun a => a = c)).reverse

/-- Go `filepath.Base`: the last path element, after trailing slashes are
removed (`"."` for the empty path, `"/"` when only slashes remain). -/
def goBase (p : String) : String :=
  if p.data = [] then "."
  else
    let l := dropTrailing '/' p.data
    if l = [] then "/"
    else
      match lastIdxOf '/' l with
      | none => String.mk l
      | some i => String.mk (l.drop (i + 1))

/-- Go `filepath.Ext`: the suffix of the last element starting at its final
dot, empty when the last element has no dot. -/
def goExt (p : String) : String :=
  let rev := p.data.reverse
  let base := rev.takeWhile (fun c => c ≠ '/')
  let upto := base.takeWhile (fun c => c ≠ '.')
  if upto.length = base.length then ""
  else String.mk ((base.take (upto.length + 1)).reverse)

/-- Go `filepath.Join` of two components (no cleaning needed for the paths
the pipeline joins). -/
def goJoin (a b : String) : String :=
  if a = "" then b else if b = "" then a else a ++ "/" ++ b

/-! ## Watcher data model (`internal/watcher/watcher.go`) -/

/-- `watcher.ChangeType`. -/
inductive ChangeType where
  | Modified
  | Created
  | Deleted
  | Renamed
deriving DecidableEq, Repr

/-- `watcher.FileChange`. -/
structure FileChange where
  Path : String
  type : ChangeType  -- Go field `Type` (a Lean keyword)
deriving DecidableEq, Repr

/-- `watcher.ChangeSet` (the timestamp plays no role in the embedded logic
and is omitted). -/
structure ChangeSet where
  Files : List FileChange
deriving DecidableEq, Repr

/-! ## Grouper (`internal/grouper`, `PreGroup`) -/

/-- `grouper.FileGroup`. -/
structure FileGroup where
  Files : List String
  Reason : String
  Diffs : String
  CommitMessage : String
deriving DecidableEq, Repr

/-- One step of building the `dirGroups` map: append `p` to the entry for
key `d`, creating the entry if absent.  Go's map iteration order is
unspecified; the embedding fixes first-insertion order as the
representative, which the partition properties do not depend on. -/
def addToGroups (gs : List (String × List String)) (d p : String) :
    List (String × List String) :=
  match gs with
  | [] => [(d, [p])]
  | (k, ps) :: rest =>
    if k = d then (k, ps ++ [p]) :: rest
    else (k, ps) :: addToGroups rest d p

/-- The `dirGroups` map of `PreGroup`: files keyed by `filepath.Dir`. -/
def dirGroupsOf (files : List FileChange) : List (String × List String) :=
  files.foldl (fun gs fc => addToGroups gs (goDir fc.Path) fc.Path) []

/-- The stem computed in `PreGroup`'s first inner loop: basename with the
extension removed (`stem := strings.TrimSuffix(name, ext)`). -/
def rawStem (name : String) : String :=
  goTrimSuffix name (goExt name)

/-- The stem recorded into `bases`: `rawStem` with a trailing `_test`
stripped. -/
def strippedStem (name : String) : String :=
  goTrimSuffix (rawStem name) "_test"

/-- The `bases` set of a directory's file list (as a list of stems). -/
def basesOf (files : List String) : List String :=
  files.map (fun f => strippedStem (goBase f))

/-- The files of one directory entry that `PreGroup` marks in `merged`:
test files whose `_test`-stripped stem occurs in `bases`. -/
def mergedOfEntry (files : List String) : List String :=
  files.filter (fun f =>
    let stem := rawStem (goBase f)
    goHasSuffix stem "_test" && (basesOf files).contains (goTrimSuffix stem "_test"))

/-- The global `merged` set across all directory entries. -/
def mergedOf (entries : List (String × List String)) : List String :=
  (entries.map (fun e => mergedOfEntry e.2)).flatten

/-- The `affinityDirs` set: directories with at least one affinity match. -/
def affinityDirsOf (entries : List (String × List String)) : List String :=
  (entries.filter (fun e => !(mergedOfEntry e.2).isEmpty)).map (fun e => e.1)

/-- `PreGroup`'s multi-file emission loop: a directory entry becomes a
`FileGroup` when it holds more than one file or its first file is in
`merged`; the reason is relabelled for affinity directories.  (A `dirGroups`
entry is never empty; Go would panic on `files[0]` otherwise.) -/
def emitGroups (entries : List (String × List String))
    (merged affinity : List String) : List FileGroup :=
  entries.filterMap (fun e =>
    match e.2 with
    | [] => none
    | f0 :: _ =>
      if e.2.length > 1 || merged.contains f0 then
        some { Files := e.2
               Reason :=
                 if affinity.contains e.1 then "name affinity: " ++ e.1
                 else "same package: " ++ e.1
               Diffs := ""
               CommitMessage := "" }
      else none)

/-- `grouper.PreGroup` (src/unnamed/part_005): heuristic pre-grouping of a
change set into `FileGroup`s. -/
def PreGroup (changeset : ChangeSet) : List FileGroup :=
  if changeset.Files.length = 0 then []
  else
    let dirGroups := dirGroupsOf changeset.Files
    let merged := mergedOf dirGroups
    let affinity := affinityDirsOf dirGroups
    let groups := emitGroups dirGroups merged affinity
    let grouped := (groups.map (fun g => g.Files)).flatten
    groups ++
      (changeset.Files.filter (fun fc => !grouped.contains fc.Path)).map
        (fun fc =>
          { Files := [fc.Path]
            Reason := "singletons " ++ goBase fc.Path
            Diffs := ""
            CommitMessage := "" })

/-! ## Watcher ignore filter (`internal/watcher/watcher.go`, `shouldIgnore`)

`shouldIgnore` calls `filepath.Match(pattern, base)`.  The matcher below
models Go's glob semantics: `*` matches any run of non-separator
characters, `?` one non-separator character, `[...]`/`[^...]` character
ranges, `\\` escapes; a malformed pattern yields no match, as
`shouldIgnore` discards `filepath.Match`'s error. -/

/-- Go `getEsc`: read one (possibly escaped) class character; `-`, `]` or a
dangling escape are malformed. -/
def getEsc : List Char → Option (Char × List Char)
  | [] => none
  | c :: rest =>
    if c = '-' ∨ c = ']' then none
    else if c = '\\' then
      match rest with
      | [] => none
      | e :: r2 => some (e, r2)
    else some (c, rest)

/-- Match a character class body against `r`; `started` tracks that at
least one range was read (Go requires non-empty classes). -/
def matchClassAux (r : Char) : Nat → List Char → Bool → Bool → Option (Bool × List Char)
  | 0, _, _, _ => none
  | fuel + 1, chunk, matched, started =>
    match chunk with
    | ']' :: rest =>
      if started then some (matched, rest)
      else none
    | _ =>
      match getEsc chunk with
      | none => none
      | some (lo, rest) =>
        match rest with
        | '-' :: rest2 =>
          match getEsc rest2 with
          | none => none
          | some (hi, rest3) =>
            matchClassAux r fuel rest3 (matched || (lo ≤ r && r ≤ hi)) true
        | _ => matchClassAux r fuel rest (matched || lo = r) true

/-- Go `filepath.Match` on character lists, fuelled (each step consumes at
least one pattern or string character, so `|pat| + |s| + 1` fuel is always
enough). -/
def globMatchFuel : Nat → List Char → List Char → Bool
  | 0, _, _ => false
  | _ + 1, [], s => s.isEmpty
  | fuel + 1, '*' :: ps, s =>
    globMatchFuel fuel ps s ||
      (match s with
       | [] => false
       | c :: s2 => c ≠ '/' && globMatchFuel fuel ('*' :: ps) s2)
  | fuel + 1, '?' :: ps, s =>
    (match s with
     | [] => false
     | c :: s2 => c ≠ '/' && globMatchFuel fuel ps s2)
  | fuel + 1, '[' :: ps, s =>
    (match s with
     | [] => false
     | c :: s2 =>
       let negated := ps.head? = some '^'
       let body := if negated then ps.tail else ps
       match matchClassAux c (body.length + 1) body false false with
       | none => false
       | some (matched, rest) =>
         matched ≠ negated && globMatchFuel fuel rest s2)
  | _ + 1, ['\\'], _ => false
  | fuel + 1, '\\' :: p :: ps, s =>
    (match s with
     | [] => false
     | c :: s2 => c = p && globMatchFuel fuel ps s2)
  | fuel + 1, p :: ps, s =>
    (match s with
     | [] => false
     | c :: s2 => c = p && globMatchFuel fuel ps s2)

/-- Go `filepath.Match pattern name` (error collapsed to `false`). -/
def globMatch (pattern name : String) : Bool :=
  globMatchFuel (pattern.data.length + name.data.length + 1) pattern.data name.data

/-- `watcher.shouldIgnore`: the ingress filter.  A path is dropped when its
basename equals a configured pattern (trailing `/` trimmed) or glob-matches
it. -/
def shouldIgnore (ignorePatterns : List String) (path : String) : Bool :=
  let base := goBase path
  ignorePatterns.any (fun pattern0 =>
    let pattern := goTrimSuffix pattern0 "/"
    base = pattern || globMatch pattern base)

/-- `config.defaultConfig`'s `IgnorePatterns`. -/
def defaultIgnorePatterns : List String :=
  ["*.log", "node_modules/", ".git/", "vendor/", ".gitpulse/"]

/-- `main.go`'s `pidFile`. -/
def pidFile : String := ".gitpulse.pid"

/-! ## AI review model (`internal/ai`, src/unnamed/part_003) -/

/-- `ai.SeverityError`. -/
def SeverityError : String := "error"

/-- `ai.SeverityWarning`. -/
def SeverityWarning : String := "warning"

/-- `ai.SeverityInfo`. -/
def SeverityInfo : String := "info"

/-- `ai.Location`. -/
structure Location where
  File : String
  StartLine : Int
  EndLine : Int
deriving DecidableEq, Repr

/-- `ai.ReviewFinding`. -/
structure ReviewFinding where
  File : String
  StartLine : Int
  EndLine : Int
  Severity : String
  Description : String
  Suggestion : String
  RelatedLocations : List Location
deriving DecidableEq, Repr

/-- `ai.ReviewResult`. -/
structure ReviewResult where
  Findings : List ReviewFinding
  HasBlockers : Bool
deriving DecidableEq, Repr

/-- `ai.hasBlockers`: the loop over findings. -/
def hasBlockers : List ReviewFinding → Bool
  | [] => false
  | f :: rest =>
    if f.Severity = SeverityError ∨ f.Severity = SeverityWarning then true
    else hasBlockers rest

/-- The normalization `ReviewCode` applies to each parsed finding: unknown
severities become `warning`; a missing `end_line` defaults to `start_line`. -/
def normalizeFinding (f : ReviewFinding) : ReviewFinding :=
  let f1 :=
    if f.Severity = SeverityError ∨ f.Severity = SeverityWarning ∨ f.Severity = SeverityInfo
    then f
    else { f with Severity := SeverityWarning }
  if f1.EndLine = 0 ∧ f1.StartLine > 0 then { f1 with EndLine := f1.StartLine } else f1

/-- The `ReviewResult` that `ReviewCode` builds from parsed findings. -/
def reviewResultOf (raw : List ReviewFinding) : ReviewResult :=
  let findings := raw.map normalizeFinding
  { Findings := findings, HasBlockers := hasBlockers findings }

/-- Outcome of one `ReviewCode` call, with the LLM transport and JSON
parsing stages as explicit cases. -/
inductive ReviewCallOutcome where
  | transportErr
  | parseErr
  | findings (raw : List ReviewFinding)

/-- `ai.ReviewCode` after the prompt is sent: a transport or parse failure
returns an error (`none`); otherwise the normalized result. -/
def ReviewCode : ReviewCallOutcome → Option ReviewResult
  | .transportErr => none
  | .parseErr => none
  | .findings raw => some (reviewResultOf raw)

/-! ## Literal string search and replacement (Go `strings.Contains`,
`strings.Replace(s, old, new, 1)`) -/

/-- Go `strings.Contains s sub` (scan from the left for `sub`). -/
def containsL (sub : List Char) : List Char → Bool
  | [] => sub.isEmpty
  | c :: t => sub.isPrefixOf (c :: t) || containsL sub t

/-- Go `strings.Contains`. -/
def goContains (s sub : String) : Bool :=
  containsL sub.data s.data

/-- Go `strings.Replace s old new 1`: replace the leftmost occurrence. -/
def replaceOnceL (old new : List Char) : List Char → List Char
  | [] => if old.isEmpty then new else []
  | c :: t =>
    if old.isPrefixOf (c :: t) then new ++ (c :: t).drop old.length
    else c :: replaceOnceL old new t

/-- Go `strings.Replace` with count 1. -/
def goReplaceOnce (s old new : String) : String :=
  String.mk (replaceOnceL old.data new.data s.data)

/-! ## Patch generation and application (src/unnamed/part_003 `GenerateFix`,
`internal/engine/engine.go` `applyAIFixes`) -/

/-- `ai.fixPatch`: the JSON response format for targeted fixes. -/
structure fixPatch where
  OldCode : String
  NewCode : String
deriving DecidableEq, Repr

/-- Outcome of the fix-generation LLM call and JSON parse. -/
inductive FixCallOutcome where
  | transportErr
  | parseErr
  | patch (p : fixPatch)

/-- The distinct error cases of `GenerateFix`. -/
inductive FixError where
  | transport
  | parse
  | emptyOldCode
  | oldCodeNotFound
deriving DecidableEq, Repr

/-- `ai.GenerateFix` (src/unnamed/part_003) after the prompt is built: an
empty `old_code` and an `old_code` absent from the current content fail
with distinct errors; otherwise the patch is applied as one literal
replacement. -/
def GenerateFix (primaryContent : String) : FixCallOutcome → Except FixError String
  | .transportErr => .error .transport
  | .parseErr => .error .parse
  | .patch p =>
    if p.OldCode = "" then .error .emptyOldCode
    else if !(goContains primaryContent p.OldCode) then .error .oldCodeNotFound
    else .ok (goReplaceOnce primaryContent p.OldCode p.NewCode)

/-- The file system seen by `applyAIFixes`, as an association list from
path to content. -/
abbrev FS := List (String × String)

/-- `os.ReadFile`. -/
def fsRead (fs : FS) (path : String) : Option String :=
  (fs.find? (fun e => e.1 = path)).map (fun e => e.2)

/-- `os.WriteFile` (create or overwrite). -/
def fsWrite (fs : FS) (path content : String) : FS :=
  if fs.any (fun e => e.1 = path) then
    fs.map (fun e => if e.1 = path then (e.1, content) else e)
  else fs ++ [(path, content)]

/-- `engine.applyAIFixes`: iterate the findings; skip non-blockers; read
the primary file; ask for a fix (the per-finding call outcome is supplied
by `fixOracle`); on success write the fixed content back to the primary
file.  Related locations are read only for prompt context and never
written. -/
def applyAIFixes (watchPath : String) (fixOracle : Nat → FixCallOutcome) :
    List ReviewFinding → Nat → FS → FS
  | [], _, fs => fs
  | finding :: rest, i, fs =>
    let fs2 :=
      if finding.Severity ≠ SeverityError ∧ finding.Severity ≠ SeverityWarning then fs
      else
        let absPath := goJoin watchPath finding.File
        match fsRead fs absPath with
        | none => fs
        | some primary =>
          match GenerateFix primary (fixOracle i) with
          | .error _ => fs
          | .ok fixed => fsWrite fs absPath fixed
    applyAIFixes watchPath fixOracle rest (i + 1) fs2

/-! ## Refiner (`internal/ai/model.go`, `RefineAndCommit`,
`GenerateCommitMessage`) -/

/-- Whitespace for Go `strings.TrimSpace` (the ASCII and Latin-1 space
characters `unicode.IsSpace` accepts; the repository's strings contain no
exotic Unicode spaces). -/
def isGoSpace (c : Char) : Bool :=
  c = ' ' ∨ c = '\t' ∨ c = '\n' ∨ c = '\x0b' ∨ c = '\x0c' ∨ c = '\r' ∨
    c = '\x85' ∨ c = '\xa0'

/-- Go `strings.TrimSpace`. -/
def goTrimSpace (s : String) : String :=
  String.mk ((s.data.dropWhile isGoSpace).reverse.dropWhile isGoSpace |>.reverse)

/-- `ai.GenerateCommitMessage` after the prompt is sent.  `resp` is the
`callClaude` result (`none` = transport error).  Returns the message and
whether an error is returned alongside it: on transport failure the
sentinel is returned together with a non-nil error; a blank reply yields
the sentinel with a nil error. -/
def GenerateCommitMessage (resp : Option String) : String × Bool :=
  match resp with
  | none => ("chore: auto-commit changes", true)
  | some raw =>
    let msg := goTrimSpace raw
    if msg = "" then ("chore: auto-commit changes", false)
    else (msg, false)

/-- One refined group as parsed from the LLM's JSON array. -/
structure RefinedSpec where
  Files : List String
  Reason : String
  CommitMessage : String
deriving DecidableEq, Repr

/-- Outcome of `RefineAndCommit`'s single `callClaude` and JSON parse.
`badJSON` carries the per-group `GenerateCommitMessage` transport results
used by the fallback loop. -/
inductive RefineOutcome where
  | transportErr
  | badJSON (msgCalls : Nat → Option String)
  | parsed (specs : List RefinedSpec)

/-- Go map insert (overwrite-or-add) for the `fileDiffs` lookup. -/
def mapInsert (m : List (String × String)) (k v : String) : List (String × String) :=
  if m.any (fun e => e.1 = k) then
    m.map (fun e => if e.1 = k then (e.1, v) else e)
  else m ++ [(k, v)]

/-- Go map lookup. -/
def mapLookup (m : List (String × String)) (k : String) : Option String :=
  (m.find? (fun e => e.1 = k)).map (fun e => e.2)

/-- Go `strings.Split s sep` for non-empty `sep`, fuelled by `|s|`. -/
def goSplitAux (sep : List Char) : Nat → List Char → List Char → List String
  | 0, acc, rest => [String.mk (acc ++ rest)]
  | fuel + 1, acc, rest =>
    if sep.isPrefixOf rest ∧ sep ≠ [] then
      String.mk acc :: goSplitAux sep fuel [] (rest.drop sep.length)
    else
      match rest with
      | [] => [String.mk acc]
      | c :: t => goSplitAux sep fuel (acc ++ [c]) t

/-- Go `strings.Split` (for the non-empty separators the code uses). -/
def goSplit (s sep : String) : List String :=
  goSplitAux sep.data (s.data.length + 1) [] s.data

/-- The `fileDiffs` lookup `RefineAndCommit` builds from the original
groups: a single-file group's whole diff belongs to that file; a
multi-file group's diff is split at `diff --git` headers and each section
is assigned to the first member file named in its `a/`/`b/` header. -/
def fileDiffsOf (groups : List FileGroup) : List (String × String) :=
  groups.foldl (fun m g =>
    match g.Files with
    | [f] => mapInsert m f g.Diffs
    | _ =>
      (goSplit g.Diffs "diff --git").foldl (fun m sec =>
        if sec = "" then m
        else
          let sec2 := "diff --git" ++ sec
          match g.Files.find? (fun f =>
              goContains sec2 (" a/" ++ f ++ " ") ||
                goContains sec2 (" b/" ++ f ++ " ")) with
          | some f => mapInsert m f sec2
          | none => m) m) []

/-- `RefineAndCommit`'s reconstruction of the refined groups on parse
success: membership, reason and message come from the parsed specs, the
combined diff is reassembled from the original per-file diffs. -/
def buildRefined (groups : List FileGroup) (specs : List RefinedSpec) : List FileGroup :=
  let fileDiffs := fileDiffsOf groups
  specs.map (fun r =>
    { Files := r.Files
      Reason := r.Reason
      CommitMessage := r.CommitMessage
      Diffs := (r.Files.map (fun f => (mapLookup fileDiffs f).getD "")).foldl
        (fun a b => a ++ b) "" })

/-- The malformed-JSON fallback loop of `RefineAndCommit`: each group gets
the per-group `GenerateCommitMessage` result, but only when that call
returns a nil error (`if msgErr == nil`). -/
def refineFallback (groups : List FileGroup) (msgCalls : Nat → Option String) :
    List FileGroup :=
  groups.mapIdx (fun i g =>
    let mc := GenerateCommitMessage (msgCalls i)
    if mc.2 then g else { g with CommitMessage := mc.1 })

/-- `ai.RefineAndCommit`: returns the refined (or fallback) groups and
whether an error is returned to the engine.  On transport failure the
original groups come back with a non-nil error; on malformed JSON the
fallback groups come back with a nil error. -/
def RefineAndCommit (groups : List FileGroup) : RefineOutcome → List FileGroup × Bool
  | .transportErr => (groups, true)
  | .badJSON msgCalls => (refineFallback groups msgCalls, false)
  | .parsed specs => (buildRefined groups specs, false)

/-! ## Engine state, triggers and flush (`internal/engine/engine.go`,
`main.go`) -/

/-- The engine state the embedded control flow touches: the interactive
flag, the pending buffer and whether the safety timer is armed. -/
structure EngineState where
  Interactive : Bool
  pending : List FileChange
  timerRunning : Bool
deriving DecidableEq, Repr

/-- `engine.New`: Go zero values — `Interactive` is false until `main`
sets it. -/
def newEngine : EngineState :=
  { Interactive := false, pending := [], timerRunning := false }

/-- `main.go:64` — daemon mode sets `eng.Interactive = true`; no other
write to the flag exists in the program. -/
def daemonStart (e : EngineState) : EngineState :=
  { e with Interactive := true }

/-- A pipeline invocation produced by `Flush`: the drained change set and
the value of `e.Interactive` that `processChanges` will consult at its
gate decision. -/
structure FlushEvent where
  files : List FileChange
  interactive : Bool
deriving DecidableEq, Repr

/-- `engine.Flush`: with an empty buffer it logs and returns before the
timer-stop and before any pipeline stage; otherwise it snapshots and
clears the buffer, stops the safety timer and hands the change set to
`processChanges`. -/
def Flush (e : EngineState) : EngineState × Option FlushEvent :=
  if e.pending.length = 0 then (e, none)
  else
    ({ e with pending := [], timerRunning := false },
      some { files := e.pending, interactive := e.Interactive })

/-- The three trigger sources of the main select loop and timer callback. -/
inductive Trigger where
  | stdinLine
  | sigusr1
  | safetyTimer

/-- The dispatch of `main.go`'s select loop (stdin and SIGUSR1 cases) and
of `resetSafetyTimer`'s callback: each path calls `e.Flush()` directly,
and none of them writes `Interactive` first. -/
def handleTrigger (e : EngineState) : Trigger → EngineState × Option FlushEvent
  | .stdinLine => if e.pending.length > 0 then Flush e else (e, none)
  | .sigusr1 => Flush e
  | .safetyTimer => if e.pending.length > 0 then Flush e else (e, none)

/-! ## Review loop (`engine.reviewLoopWithRecord`, `engine.processChanges`) -/

/-- `engine.maxReviewIterations`. -/
def maxReviewIterations : Nat := 3

/-- The external outcomes one loop iteration can meet: the `ReviewCode`
call result and the gate prompt result (`none` models a prompt error,
which the loop treats as a return). -/
structure ReviewIter where
  review : ReviewCallOutcome
  promptAction : Option String

/-- The body of `reviewLoopWithRecord`, counting `ReviewCode` invocations.
Each iteration performs exactly one review call, then returns early on
review error, empty findings, no blockers, prompt error or the `continue`
action; otherwise (after fixes and diff refetch) the next iteration runs,
up to `maxReviewIterations` in total. -/
def reviewLoopCallsAux (env : Nat → ReviewIter) : Nat → Nat → Nat
  | _, 0 => 0
  | iter, fuel + 1 =>
    1 + (match ReviewCode (env iter).review with
      | none => 0
      | some result =>
        if result.Findings.length = 0 then 0
        else if !result.HasBlockers then 0
        else
          match (env iter).promptAction with
          | none => 0
          | some action =>
            if action = "continue" then 0
            else reviewLoopCallsAux env (iter + 1) fuel)

/-- Number of `ReviewCode` calls one run of `reviewLoopWithRecord` makes. -/
def reviewLoopCalls (env : Nat → ReviewIter) : Nat :=
  reviewLoopCallsAux env 0 maxReviewIterations

/-- The review phase of `processChanges` (engine.go 230–254): with code
review enabled, the interactive engine runs `reviewLoopWithRecord`, while
the non-interactive engine makes a single `ReviewCode` call and proceeds
regardless of its outcome. -/
def processReviewCalls (codeReview interactive : Bool) (env : Nat → ReviewIter) : Nat :=
  if codeReview then
    if interactive then reviewLoopCalls env
    else 1
  else 0

/-! ## History store paths (src/unnamed/part_002 `store.New`,
`internal/engine/engine.go` `New`, `main.go` `dashboardCmd`) -/

/-- `store.New`'s path resolution: an empty path argument falls back to
`~/.gitpulse/history.json` under the user's home directory. -/
def storeNewPath (arg home : String) : String :=
  if arg = "" then goJoin (goJoin home ".gitpulse") "history.json"
  else arg

/-- The history file the engine writes: `engine.New` constructs its store
with `store.New("")`. -/
def engineHistoryPath (home : String) : String :=
  storeNewPath "" home

/-- The history file the dashboard serves: `dashboardCmd` joins the
watched root with `.gitpulse/history.json`. -/
def dashboardHistoryPath (root : String) : String :=
  goJoin (goJoin root ".gitpulse") "history.json"

/-! ## Theorems -/

/-- Unfolding lemma for `hasBlockers`. -/
theorem hasBlockers_iff (fs : List ReviewFinding) :
    hasBlockers fs = true ↔
      ∃ f ∈ fs, f.Severity = SeverityError ∨ f.Severity = SeverityWarning := by
  induction fs with
  | nil => simp [hasBlockers]
  | cons f rest ih =>
    by_cases h : f.Severity = SeverityError ∨ f.Severity = SeverityWarning
    · simp [hasBlockers, h]
    · simp [hasBlockers, h, ih]

/-- C5: for every list of findings, the `ReviewResult` built by
`ReviewCode` has `HasBlockers = true` exactly when some finding in the
result has severity `error` or `warning`; the flag is computed from the
findings alone. -/
theorem hasBlockers_law (raw : List ReviewFinding) :
    ((reviewResultOf raw).HasBlockers = true ↔
        ∃ f ∈ (reviewResultOf raw).Findings,
          f.Severity = SeverityError ∨ f.Severity = SeverityWarning) ∧
      (reviewResultOf raw).HasBlockers = hasBlockers (reviewResultOf raw).Findings := by
  refine ⟨?_, rfl⟩
  exact hasBlockers_iff (raw.map normalizeFinding)

/-- The loop body performs at most `fuel` review calls. -/
theorem reviewLoopCallsAux_le (env : Nat → ReviewIter) :
    ∀ fuel iter, reviewLoopCallsAux env iter fuel ≤ fuel := by
  intro fuel
  induction fuel with
  | zero => intro iter; simp [reviewLoopCallsAux]
  | succ n ih =>
    intro iter
    have hinner :
        (match ReviewCode (env iter).review with
          | none => 0
          | some result =>
            if result.Findings.length = 0 then 0
            else if !result.HasBlockers then 0
            else
              match (env iter).promptAction with
              | none => 0
              | some action =>
                if action = "continue" then 0
                else reviewLoopCallsAux env (iter + 1) n) ≤ n := by
      cases hr : ReviewCode (env iter).review with
      | none => exact Nat.zero_le n
      | some result =>
        by_cases h0 : result.Findings.length = 0
        · simp [h0]
        · simp only [h0, if_false]
          by_cases hb : !result.HasBlockers
          · simp [hb]
          · simp only [hb, if_false]
            cases hp : (env iter).promptAction with
            | none => exact Nat.zero_le n
            | some action =>
              by_cases hc : action = "continue"
              · simp [hc]
              · simpa [hc] using ih (iter + 1)
    calc reviewLoopCallsAux env iter (n + 1) = 1 + _ := rfl
      _ ≤ 1 + n := by omega
      _ = n + 1 := by omega

/-- C4: with code review enabled, a flush performs at most
`maxReviewIterations` (three) `ReviewCode` calls whatever the findings and
gate choices are, and a non-interactive flush performs exactly one. -/
theorem gate_review_call_bound (interactive : Bool) (env : Nat → ReviewIter) :
    processReviewCalls true interactive env ≤ maxReviewIterations ∧
      processReviewCalls true false env = 1 := by
  constructor
  · cases interactive with
    | false => simp [processReviewCalls, maxReviewIterations]
    | true =>
      simpa [processReviewCalls, reviewLoopCalls] using
        reviewLoopCallsAux_le env maxReviewIterations 0
  · rfl

/-- C2: in the program as written, a SIGUSR1-triggered flush and a
safety-timer flush both run with the engine's interactive flag still on:
`main` sets `Interactive = true` at daemon startup and no trigger path
writes it again, so the gate may prompt on those paths.  (The claim,
`engine.go`'s own field comment and the repository's plan document all say
these flushes run with interactive mode off.) -/
theorem signal_and_timer_flush_interactive_on :
    ((handleTrigger
        (daemonStart
          { newEngine with
              pending := [{ Path := "a.go", type := ChangeType.Modified }]
              timerRunning := true }) Trigger.sigusr1).2.map
          (fun ev => ev.interactive) = some true) ∧
      ((handleTrigger
        (daemonStart
          { newEngine with
              pending := [{ Path := "a.go", type := ChangeType.Modified }]
              timerRunning := true }) Trigger.safetyTimer).2.map
          (fun ev => ev.interactive) = some true) := by
  constructor <;> rfl

/-- C3: when `RefineAndCommit` meets malformed JSON and the per-group
fallback `GenerateCommitMessage` call fails in transport, the sentinel it
returns alongside the error is discarded (`if msgErr == nil`), so the
group comes back with its commit message still empty — and with a nil
error, so the engine's own sentinel fill does not run either. -/
theorem refine_malformed_fallback_message_empty :
    ((RefineAndCommit
        [{ Files := ["a.go"], Reason := "same package: .", Diffs := "", CommitMessage := "" }]
        (RefineOutcome.badJSON (fun _ => none))).1.map (fun g => g.CommitMessage) = [""]) ∧
      (RefineAndCommit
        [{ Files := ["a.go"], Reason := "same package: .", Diffs := "", CommitMessage := "" }]
        (RefineOutcome.badJSON (fun _ => none))).2 = false := by
  constructor <;> rfl

/-- C9: the engine's store is created with `store.New("")`, which resolves
to `.gitpulse/history.json` under the user's home directory — not under
the watched root that `dashboardCmd` serves, so with a watched root other
than the home directory the daemon and the dashboard use different
history files. -/
theorem engine_history_under_home_not_root :
    engineHistoryPath "/home/u" = "/home/u/.gitpulse/history.json" ∧
      dashboardHistoryPath "/proj" = "/proj/.gitpulse/history.json" ∧
      engineHistoryPath "/home/u" ≠ dashboardHistoryPath "/proj" := by
  refine ⟨rfl, rfl, ?_⟩
  decide

/-- C10: a flush with an empty pending buffer is a no-op — it returns the
engine state unchanged (buffer, safety timer and all other fields) and
produces no pipeline invocation, so no grouping, VCS, LLM or history-store
operation runs. -/
theorem flush_empty_noop (e : EngineState) (h : e.pending = []) :
    Flush e = (e, none) := by
  simp [Flush, h]

/-- Witness for `flush_empty_noop` at a concrete engine state. -/
theorem flush_empty_noop_witness :
    Flush { Interactive := true, pending := [], timerRunning := true } =
      ({ Interactive := true, pending := [], timerRunning := true }, none) :=
  flush_empty_noop { Interactive := true, pending := [], timerRunning := true } rfl

/-- C7 counterexample: the ingress filter does not always drop the
pipeline's state files.  Under the default configuration a path inside
`.gitpulse/` and the PID file itself both pass the filter (only the
basename is matched against the patterns), and a configuration supplying
its own `ignore_patterns` list replaces the defaults, after which even the
`.gitpulse` directory entry passes. -/
theorem gitpulse_paths_not_always_dropped :
    shouldIgnore defaultIgnorePatterns ".gitpulse/history.json" = false ∧
      shouldIgnore defaultIgnorePatterns pidFile = false ∧
      shouldIgnore ["*.log"] ".gitpulse" = false := by
  refine ⟨?_, ?_, ?_⟩ <;> decide

/-- C7 amended: `shouldIgnore` consults only the path's basename, matching
it (exactly or as a glob) against each configured pattern with a trailing
slash trimmed; under the default patterns the `.gitpulse` directory entry
itself is dropped, while paths inside `.gitpulse/` and the PID file are
not. -/
theorem shouldIgnore_basename_only (patterns : List String) (p q : String)
    (h : goBase p = goBase q) :
    shouldIgnore patterns p = shouldIgnore patterns q ∧
      shouldIgnore defaultIgnorePatterns ".gitpulse" = true ∧
      shouldIgnore defaultIgnorePatterns (goJoin ".gitpulse" "history.json") = false ∧
      shouldIgnore defaultIgnorePatterns pidFile = false := by
  refine ⟨?_, by decide, by decide, by decide⟩
  simp only [shouldIgnore, h]

/-- Witness for `shouldIgnore_basename_only`: two paths sharing the
basename `app.log` are filtered identically. -/
theorem shouldIgnore_basename_only_witness :
    (shouldIgnore defaultIgnorePatterns "a/app.log" =
        shouldIgnore defaultIgnorePatterns "deep/dir/app.log") ∧
      shouldIgnore defaultIgnorePatterns ".gitpulse" = true ∧
      shouldIgnore defaultIgnorePatterns (goJoin ".gitpulse" "history.json") = false ∧
      shouldIgnore defaultIgnorePatterns pidFile = false :=
  shouldIgnore_basename_only defaultIgnorePatterns "a/app.log" "deep/dir/app.log" (by decide)

/-- `fsRead` unfolds on a cons cell. -/
theorem fsRead_cons (e : String × String) (t : FS) (b : String) :
    fsRead (e :: t) b = if e.1 = b then some e.2 else fsRead t b := by
  by_cases h : e.1 = b <;> simp [fsRead, List.find?, h]

/-- Overwriting the value at key `a` does not change lookups at `b ≠ a`. -/
theorem fsRead_map_update_ne (a c b : String) (h : a ≠ b) :
    ∀ fs : FS, fsRead (fs.map (fun e => if e.1 = a then (e.1, c) else e)) b = fsRead fs b := by
  intro fs
  induction fs with
  | nil => rfl
  | cons e t ih =>
    by_cases he : e.1 = a
    · rw [List.map_cons, if_pos he, fsRead_cons, fsRead_cons]
      have hb : ¬e.1 = b := fun hb => h (he ▸ hb)
      simp [hb, ih]
    · rw [List.map_cons, if_neg he, fsRead_cons, fsRead_cons, ih]

/-- Appending a binding for key `a` does not change lookups at `b ≠ a`. -/
theorem fsRead_append_single_ne (a c b : String) (h : a ≠ b) :
    ∀ fs : FS, fsRead (fs ++ [(a, c)]) b = fsRead fs b := by
  intro fs
  induction fs with
  | nil =>
    rw [List.nil_append, fsRead_cons]
    simp [fsRead, h]
  | cons e t ih =>
    rw [List.cons_append, fsRead_cons, fsRead_cons, ih]

/-- Writing path `a` does not change what is read at a different path. -/
theorem fsRead_fsWrite_ne (fs : FS) (a c b : String) (h : a ≠ b) :
    fsRead (fsWrite fs a c) b = fsRead fs b := by
  unfold fsWrite
  by_cases hany : fs.any (fun e => e.1 = a)
  · rw [if_pos hany]
    exact fsRead_map_update_ne a c b h fs
  · rw [if_neg hany]
    exact fsRead_append_single_ne a c b h fs

/-- C6: a fix is applied as one literal replacement of `old_code` by
`new_code` in the primary file's current content; an empty `old_code` and
an `old_code` not found verbatim fail with distinct errors (and
`applyAIFixes` then writes nothing); only `error`/`warning` findings are
eligible, and any path that is not the primary file of such a finding —
in particular every related location that is not itself some blocker's
primary file — is left untouched by `applyAIFixes`. -/
theorem aiFix_literal_patch (content : String) (p : fixPatch) (watchPath : String)
    (oracle : Nat → FixCallOutcome) (findings : List ReviewFinding) (i : Nat)
    (fs : FS) (path : String) :
    (p.OldCode ≠ "" → goContains content p.OldCode = true →
      GenerateFix content (FixCallOutcome.patch p) =
        Except.ok (goReplaceOnce content p.OldCode p.NewCode)) ∧
    (p.OldCode = "" →
      GenerateFix content (FixCallOutcome.patch p) = Except.error FixError.emptyOldCode) ∧
    (p.OldCode ≠ "" → goContains content p.OldCode = false →
      GenerateFix content (FixCallOutcome.patch p) = Except.error FixError.oldCodeNotFound) ∧
    ((∀ f ∈ findings, f.Severity = SeverityError ∨ f.Severity = SeverityWarning →
        goJoin watchPath f.File ≠ path) →
      fsRead (applyAIFixes watchPath oracle findings i fs) path = fsRead fs path) := by
  refine ⟨?_, ?_, ?_, ?_⟩
  · intro h1 h2
    simp [GenerateFix, h1, h2]
  · intro h1
    simp [GenerateFix, h1]
  · intro h1 h2
    simp [GenerateFix, h1, h2]
  · intro hframe
    induction findings generalizing i fs with
    | nil => rfl
    | cons finding rest ih =>
      have hrest : ∀ f ∈ rest, f.Severity = SeverityError ∨ f.Severity = SeverityWarning →
          goJoin watchPath f.File ≠ path := by
        intro f hf
        exact hframe f (List.mem_cons_of_mem _ hf)
      show fsRead (applyAIFixes watchPath oracle (finding :: rest) i fs) path = fsRead fs path
      unfold applyAIFixes
      by_cases hsev : finding.Severity ≠ SeverityError ∧ finding.Severity ≠ SeverityWarning
      · rw [if_pos hsev]
        exact ih (i + 1) fs hrest
      · rw [if_neg hsev]
        have hblocker : finding.Severity = SeverityError ∨ finding.Severity = SeverityWarning := by
          by_cases h1 : finding.Severity = SeverityError
          · exact Or.inl h1
          · by_cases h2 : finding.Severity = SeverityWarning
            · exact Or.inr h2
            · exact absurd ⟨h1, h2⟩ hsev
        have hne : goJoin watchPath finding.File ≠ path :=
          hframe finding (List.mem_cons_self _ _) hblocker
        show fsRead (applyAIFixes watchPath oracle rest (i + 1)
          (match fsRead fs (goJoin watchPath finding.File) with
            | none => fs
            | some primary =>
              match GenerateFix primary (oracle i) with
              | Except.error _ => fs
              | Except.ok fixed => fsWrite fs (goJoin watchPath finding.File) fixed)) path =
          fsRead fs path
        cases hr : fsRead fs (goJoin watchPath finding.File) with
        | none =>
          exact ih (i + 1) fs hrest
        | some primary =>
          show fsRead (applyAIFixes watchPath oracle rest (i + 1)
            (match GenerateFix primary (oracle i) with
              | Except.error _ => fs
              | Except.ok fixed => fsWrite fs (goJoin watchPath finding.File) fixed)) path =
            fsRead fs path
          cases hg : GenerateFix primary (oracle i) with
          | error e =>
            exact ih (i + 1) fs hrest
          | ok fixed =>
            show fsRead (applyAIFixes watchPath oracle rest (i + 1)
              (fsWrite fs (goJoin watchPath finding.File) fixed)) path = fsRead fs path
            rw [ih (i + 1) (fsWrite fs (goJoin watchPath finding.File) fixed) hrest]
            exact fsRead_fsWrite_ne fs (goJoin watchPath finding.File) fixed path hne

/-- Witness for `aiFix_literal_patch`: the patch `b → Q` rewrites `abc` to
`aQc`, and fixing the blocker in `f.go` leaves the related file `g.go`
untouched. -/
theorem aiFix_literal_patch_witness :
    GenerateFix "abc" (FixCallOutcome.patch { OldCode := "b", NewCode := "Q" }) =
        Except.ok "aQc" ∧
      fsRead (applyAIFixes "/r" (fun _ => FixCallOutcome.patch { OldCode := "b", NewCode := "Q" })
          [{ File := "f.go", StartLine := 1, EndLine := 1, Severity := "error",
             Description := "d", Suggestion := "s",
             RelatedLocations := [{ File := "g.go", StartLine := 1, EndLine := 2 }] }] 0
          [("/r/f.go", "abc"), ("/r/g.go", "xbx")]) "/r/g.go" =
        fsRead [("/r/f.go", "abc"), ("/r/g.go", "xbx")] "/r/g.go" := by
  constructor
  · have h := (aiFix_literal_patch "abc" { OldCode := "b", NewCode := "Q" } "/r"
      (fun _ => FixCallOutcome.patch { OldCode := "b", NewCode := "Q" }) [] 0 [] "").1
      (by decide) (by decide)
    have e1 : goReplaceOnce "abc" "b" "Q" = "aQc" := by decide
    rw [e1] at h
    exact h
  · exact (aiFix_literal_patch "abc" { OldCode := "b", NewCode := "Q" } "/r"
      (fun _ => FixCallOutcome.patch { OldCode := "b", NewCode := "Q" })
      [{ File := "f.go", StartLine := 1, EndLine := 1, Severity := "error",
         Description := "d", Suggestion := "s",
         RelatedLocations := [{ File := "g.go", StartLine := 1, EndLine := 2 }] }] 0
      [("/r/f.go", "abc"), ("/r/g.go", "xbx")] "/r/g.go").2.2.2 (by decide)

/-! ### The grouper partition law (C1) -/

/-- Inserting a file into the directory map only adds that one path to the
multiset of stored paths. -/
theorem flatten_addToGroups (gs : List (String × List String)) (d p : String) :
    ((addToGroups gs d p).map (fun e => e.2)).flatten.Perm
      (((gs.map (fun e => e.2)).flatten) ++ [p]) := by
  induction gs with
  | nil => simp [addToGroups]
  | cons e rest ih =>
    obtain ⟨k, ps⟩ := e
    by_cases hk : k = d
    · rw [show addToGroups ((k, ps) :: rest) d p = (k, ps ++ [p]) :: rest from by
        simp [addToGroups, hk]]
      simp only [List.map_cons, List.flatten_cons]
      have h := List.Perm.append_left ps
        (@List.perm_append_comm _ [p] ((rest.map (fun e => e.2)).flatten))
      simpa [List.append_assoc] using h
    · rw [show addToGroups ((k, ps) :: rest) d p = (k, ps) :: addToGroups rest d p from by
        simp [addToGroups, hk]]
      simp only [List.map_cons, List.flatten_cons]
      have h := List.Perm.append_left ps ih
      simpa [List.append_assoc] using h

/-- The multiset of paths stored in the directory map is exactly the
multiset of input paths. -/
theorem flatten_dirGroupsOf (files : List FileChange) :
    (((dirGroupsOf files).map (fun e => e.2)).flatten).Perm
      (files.map (fun fc => fc.Path)) := by
  suffices h : ∀ gs : List (String × List String),
      (((files.foldl (fun gs fc => addToGroups gs (goDir fc.Path) fc.Path) gs).map
          (fun e => e.2)).flatten).Perm
        ((gs.map (fun e => e.2)).flatten ++ files.map (fun fc => fc.Path)) by
    simpa [dirGroupsOf] using h []
  induction files with
  | nil => intro gs; simp
  | cons fc rest ih =>
    intro gs
    refine List.Perm.trans (ih (addToGroups gs (goDir fc.Path) fc.Path)) ?_
    refine List.Perm.trans
      (List.Perm.append_right (rest.map (fun fc => fc.Path))
        (flatten_addToGroups gs (goDir fc.Path) fc.Path)) ?_
    simp [List.append_assoc]

/-- Every path stored under a directory key has that key as its
`filepath.Dir`. -/
theorem dir_of_mem_dirGroupsOf (files : List FileChange) :
    ∀ e ∈ dirGroupsOf files, ∀ q ∈ e.2, goDir q = e.1 := by
  suffices h : ∀ gs : List (String × List String),
      (∀ e ∈ gs, ∀ q ∈ e.2, goDir q = e.1) →
      ∀ e ∈ files.foldl (fun gs fc => addToGroups gs (goDir fc.Path) fc.Path) gs,
        ∀ q ∈ e.2, goDir q = e.1 by
    exact h [] (by intro e he; cases he)
  have hstep : ∀ (gs : List (String × List String)) (p : String),
      (∀ e ∈ gs, ∀ q ∈ e.2, goDir q = e.1) →
      ∀ e ∈ addToGroups gs (goDir p) p, ∀ q ∈ e.2, goDir q = e.1 := by
    intro gs p hgs
    induction gs with
    | nil =>
      intro e he q hq
      simp only [addToGroups, List.mem_singleton] at he
      subst he
      simp only [List.mem_singleton] at hq
      subst hq
      rfl
    | cons e0 rest ih =>
      obtain ⟨k, ps⟩ := e0
      by_cases hk : k = goDir p
      · intro e he q hq
        simp only [addToGroups, hk, if_true, List.mem_cons] at he
        rcases he with he | he
        · subst he
          simp only [List.mem_append, List.mem_singleton] at hq
          rcases hq with hq | hq
          · exact hgs (goDir p, ps) (by rw [← hk]; exact List.mem_cons_self _ _) q hq
          · subst hq; rfl
        · exact hgs _ (List.mem_cons_of_mem _ he) q hq
      · intro e he q hq
        simp only [addToGroups, hk, if_false, List.mem_cons] at he
        rcases he with he | he
        · subst he
          exact hgs (k, ps) (List.mem_cons_self _ _) q hq
        · exact ih (fun e2 he2 => hgs e2 (List.mem_cons_of_mem _ he2)) e he q hq
  induction files with
  | nil => intro gs hgs; exact hgs
  | cons fc rest ih =>
    intro gs hgs
    exact ih (addToGroups gs (goDir fc.Path) fc.Path) (hstep gs fc.Path hgs)

/-- Inserting into the directory map leaves the key list unchanged when
the key is present, and appends it otherwise. -/
theorem keys_addToGroups (gs : List (String × List String)) (d p : String) :
    (addToGroups gs d p).map (fun e => e.1) =
      if d ∈ gs.map (fun e => e.1) then gs.map (fun e => e.1)
      else gs.map (fun e => e.1) ++ [d] := by
  induction gs with
  | nil => simp [addToGroups]
  | cons e rest ih =>
    obtain ⟨k, ps⟩ := e
    by_cases hk : k = d
    · simp [addToGroups, hk]
    · have hne : ¬d = k := fun h => hk h.symm
      simp only [addToGroups, hk, if_false, List.map_cons, ih, List.mem_cons, hne,
        false_or]
      by_cases hmem : d ∈ rest.map (fun e => e.1) <;> simp [hmem]

/-- The directory map has pairwise-distinct keys. -/
theorem keys_nodup_dirGroupsOf (files : List FileChange) :
    ((dirGroupsOf files).map (fun e => e.1)).Nodup := by
  suffices h : ∀ gs : List (String × List String),
      (gs.map (fun e => e.1)).Nodup →
      ((files.foldl (fun gs fc => addToGroups gs (goDir fc.Path) fc.Path) gs).map
        (fun e => e.1)).Nodup by
    exact h [] List.nodup_nil
  induction files with
  | nil => intro gs hgs; exact hgs
  | cons fc rest ih =>
    intro gs hgs
    refine ih _ ?_
    rw [keys_addToGroups]
    by_cases hmem : goDir fc.Path ∈ gs.map (fun e => e.1)
    · simpa [hmem] using hgs
    · simp only [hmem, if_false]
      simp [List.nodup_append, hgs, hmem]

/-- A path's occurrences in the directory map all sit in the unique entry
keyed by its directory. -/
theorem count_flatten_dirGroups (entries : List (String × List String))
    (hdir : ∀ e ∈ entries, ∀ q ∈ e.2, goDir q = e.1)
    (hnodup : (entries.map (fun e => e.1)).Nodup)
    (e0 : String × List String) (he0 : e0 ∈ entries) (p : String)
    (hp : goDir p = e0.1) :
    ((entries.map (fun e => e.2)).flatten).count p = e0.2.count p := by
  induction entries with
  | nil => cases he0
  | cons e rest ih =>
    simp only [List.map_cons, List.flatten_cons, List.count_append]
    simp only [List.map_cons, List.nodup_cons] at hnodup
    rcases List.mem_cons.mp he0 with he | he
    · subst he
      have hz : ((rest.map (fun e => e.2)).flatten).count p = 0 := by
        rw [List.count_eq_zero]
        intro hmem
        rw [List.mem_flatten] at hmem
        obtain ⟨s, hs, hps⟩ := hmem
        rw [List.mem_map] at hs
        obtain ⟨e2, he2, hs⟩ := hs
        have h1 : goDir p = e2.1 := hdir e2 (List.mem_cons_of_mem _ he2) p (hs ▸ hps)
        have h2 : e2.1 = e0.1 := by rw [← h1, hp]
        exact hnodup.1 (h2 ▸ List.mem_map.mpr ⟨e2, he2, rfl⟩)
      omega
    · have hze : e.2.count p = 0 := by
        rw [List.count_eq_zero]
        intro hmem
        have h1 : goDir p = e.1 := hdir e (List.mem_cons_self _ _) p hmem
        have h2 : e0.1 ∈ rest.map (fun e => e.1) := List.mem_map.mpr ⟨e0, he, rfl⟩
        rw [← hp, h1] at h2
        exact hnodup.1 h2
      rw [hze, ih (fun e2 he2 => hdir e2 (List.mem_cons_of_mem _ he2)) hnodup.2 he]
      omega

/-- Membership in the emitted multi-file groups, characterized. -/
theorem mem_emitGroups_iff (entries : List (String × List String))
    (m a : List String) (g : FileGroup) :
    g ∈ emitGroups entries m a ↔
      ∃ e ∈ entries, ∃ f0 t, e.2 = f0 :: t ∧
        (e.2.length > 1 || m.contains f0) = true ∧
        g = { Files := e.2
              Reason :=
                if a.contains e.1 then "name affinity: " ++ e.1
                else "same package: " ++ e.1
              Diffs := ""
              CommitMessage := "" } := by
  rw [emitGroups, List.mem_filterMap]
  constructor
  · rintro ⟨e, he, hfe⟩
    cases hcase : e.2 with
    | nil => rw [hcase] at hfe; simp at hfe
    | cons f0 t =>
      rw [hcase] at hfe
      simp only at hfe
      by_cases hcond : (e.2.length > 1 || m.contains f0) = true
      · rw [hcase] at hcond
        rw [if_pos hcond] at hfe
        refine ⟨e, he, f0, t, hcase, by rw [hcase]; exact hcond, ?_⟩
        rw [← Option.some_inj.mp hfe, hcase]
      · rw [hcase] at hcond
        rw [if_neg hcond] at hfe
        cases hfe
  · rintro ⟨e, he, f0, t, hcase, hcond, hg⟩
    refine ⟨e, he, ?_⟩
    rw [hcase]
    simp only
    rw [hcase] at hcond
    rw [if_pos hcond, hg, hcase]

/-- `Pairwise` transfers through `filterMap` along a compatibility map. -/
theorem pairwise_filterMap_compat {α β : Type} (R : α → α → Prop) (S : β → β → Prop)
    (f : α → Option β) (l : List α) (hl : l.Pairwise R)
    (hcompat : ∀ x ∈ l, ∀ y ∈ l, R x y → ∀ gx gy, f x = some gx → f y = some gy → S gx gy) :
    (l.filterMap f).Pairwise S := by
  induction l with
  | nil => exact List.Pairwise.nil
  | cons x t ih =>
    have htail : (t.filterMap f).Pairwise S :=
      ih hl.tail (fun u hu v hv huv => hcompat u (List.mem_cons_of_mem _ hu) v
        (List.mem_cons_of_mem _ hv) huv)
    rw [List.filterMap_cons]
    cases hfx : f x with
    | none => exact htail
    | some gx =>
      refine List.Pairwise.cons ?_ htail
      intro gy hgy
      rw [List.mem_filterMap] at hgy
      obtain ⟨y, hy, hfy⟩ := hgy
      exact hcompat x (List.mem_cons_self _ _) y (List.mem_cons_of_mem _ hy)
        (List.rel_of_pairwise_cons hl hy) gx gy hfx hfy

/-- `List.contains` agrees with membership for strings. -/
theorem contains_iff_mem_str (l : List String) (a : String) :
    l.contains a = true ↔ a ∈ l := by
  simp

/-- The partition law for the explicit body of `PreGroup` on a non-empty
change set: emitted directory groups plus leftover singletons cover
exactly the input paths, pairwise disjointly. -/
theorem preGroup_core (files : List FileChange) :
    (∀ p,
        (∃ g ∈ emitGroups (dirGroupsOf files) (mergedOf (dirGroupsOf files))
              (affinityDirsOf (dirGroupsOf files)) ++
            (files.filter (fun fc =>
                !((emitGroups (dirGroupsOf files) (mergedOf (dirGroupsOf files))
                    (affinityDirsOf (dirGroupsOf files))).map
                  (fun g => g.Files)).flatten.contains fc.Path)).map
              (fun fc =>
                ({ Files := [fc.Path]
                   Reason := "singletons " ++ goBase fc.Path
                   Diffs := ""
                   CommitMessage := "" } : FileGroup)), p ∈ g.Files) ↔
          ∃ fc ∈ files, fc.Path = p) ∧
      (emitGroups (dirGroupsOf files) (mergedOf (dirGroupsOf files))
          (affinityDirsOf (dirGroupsOf files)) ++
        (files.filter (fun fc =>
            !((emitGroups (dirGroupsOf files) (mergedOf (dirGroupsOf files))
                (affinityDirsOf (dirGroupsOf files))).map
              (fun g => g.Files)).flatten.contains fc.Path)).map
          (fun fc =>
            ({ Files := [fc.Path]
               Reason := "singletons " ++ goBase fc.Path
               Diffs := ""
               CommitMessage := "" } : FileGroup))).Pairwise
        (fun g h => ∀ p, p ∈ g.Files → p ∉ h.Files) := by
  set entries := dirGroupsOf files with hentries
  set merged := mergedOf entries with hmerged
  set affinity := affinityDirsOf entries with haffinity
  set groups := emitGroups entries merged affinity with hgroups
  set grouped := (groups.map (fun g => g.Files)).flatten with hgrouped
  have hperm := flatten_dirGroupsOf files
  have hdir := dir_of_mem_dirGroupsOf files
  have hnodup := keys_nodup_dirGroupsOf files
  -- paths of emitted groups are entry lists
  have hfiles_of_groups : ∀ g ∈ groups, ∃ e ∈ entries, g.Files = e.2 := by
    intro g hg
    rw [hgroups, mem_emitGroups_iff] at hg
    obtain ⟨e, he, f0, t, hcase, hcond, hgdef⟩ := hg
    exact ⟨e, he, by rw [hgdef]⟩
  -- membership in `grouped`
  have hmem_grouped : ∀ p, p ∈ grouped ↔ ∃ g ∈ groups, p ∈ g.Files := by
    intro p
    rw [hgrouped, List.mem_flatten]
    constructor
    · rintro ⟨s, hs, hps⟩
      rw [List.mem_map] at hs
      obtain ⟨g, hg, hs⟩ := hs
      exact ⟨g, hg, hs ▸ hps⟩
    · rintro ⟨g, hg, hp⟩
      exact ⟨g.Files, List.mem_map.mpr ⟨g, hg, rfl⟩, hp⟩
  -- an ungrouped path occurs at most once among the input paths
  have hcount_le : ∀ p, p ∉ grouped →
      (files.map (fun fc => fc.Path)).count p ≤ 1 := by
    intro p hp
    by_cases hmem : p ∈ files.map (fun fc => fc.Path)
    · have hflat : p ∈ ((entries.map (fun e => e.2)).flatten) := hperm.mem_iff.mpr hmem
      rw [List.mem_flatten] at hflat
      obtain ⟨s, hs, hps⟩ := hflat
      rw [List.mem_map] at hs
      obtain ⟨e0, he0, hs⟩ := hs
      subst hs
      have hkey : goDir p = e0.1 := hdir e0 he0 p hps
      have hcnt := count_flatten_dirGroups entries hdir hnodup e0 he0 p hkey
      rw [hperm.count_eq p] at hcnt
      obtain ⟨f0, t, hcase⟩ : ∃ f0 t, e0.2 = f0 :: t := by
        cases hc : e0.2 with
        | nil => rw [hc] at hps; cases hps
        | cons f0 t => exact ⟨f0, t, rfl⟩
      have hnotcond : ¬((e0.2.length > 1 || merged.contains f0) = true) := by
        intro hcond
        apply hp
        rw [hmem_grouped p]
        refine ⟨{ Files := e0.2
                  Reason :=
                    if affinity.contains e0.1 then "name affinity: " ++ e0.1
                    else "same package: " ++ e0.1
                  Diffs := ""
                  CommitMessage := "" }, ?_, hps⟩
        rw [hgroups, mem_emitGroups_iff]
        exact ⟨e0, he0, f0, t, hcase, hcond, rfl⟩
      have hlen : e0.2.length ≤ 1 := by
        by_contra hgt
        exact hnotcond (by simp [Nat.lt_of_not_le hgt])
      calc (files.map (fun fc => fc.Path)).count p = e0.2.count p := hcnt
        _ ≤ e0.2.length := List.count_le_length p e0.2
        _ ≤ 1 := hlen
    · rw [List.count_eq_zero.mpr hmem]
      omega
  constructor
  · -- the union law
    intro p
    constructor
    · rintro ⟨g, hg, hp⟩
      rw [List.mem_append] at hg
      rcases hg with hg | hg
      · obtain ⟨e, he, hfe⟩ := hfiles_of_groups g hg
        have hflat : p ∈ ((entries.map (fun e => e.2)).flatten) := by
          rw [List.mem_flatten]
          exact ⟨e.2, List.mem_map.mpr ⟨e, he, rfl⟩, hfe ▸ hp⟩
        have := hperm.mem_iff.mp hflat
        rw [List.mem_map] at this
        obtain ⟨fc, hfc, hfp⟩ := this
        exact ⟨fc, hfc, hfp⟩
      · rw [List.mem_map] at hg
        obtain ⟨fc, hfc, hgdef⟩ := hg
        rw [← hgdef] at hp
        simp only [List.mem_singleton] at hp
        exact ⟨fc, (List.mem_filter.mp hfc).1, hp.symm⟩
    · rintro ⟨fc, hfc, hfp⟩
      by_cases hgr : fc.Path ∈ grouped
      · rw [hmem_grouped] at hgr
        obtain ⟨g, hg, hp⟩ := hgr
        exact ⟨g, List.mem_append.mpr (Or.inl hg), hfp ▸ hp⟩
      · refine ⟨{ Files := [fc.Path]
                  Reason := "singletons " ++ goBase fc.Path
                  Diffs := ""
                  CommitMessage := "" },
          List.mem_append.mpr (Or.inr ?_), by simp [hfp]⟩
        rw [List.mem_map]
        refine ⟨fc, List.mem_filter.mpr ⟨hfc, ?_⟩, rfl⟩
        rw [Bool.not_eq_true']
        rw [← Bool.not_eq_true, contains_iff_mem_str]
        exact hgr
  · -- pairwise disjointness
    rw [List.pairwise_append]
    refine ⟨?_, ?_, ?_⟩
    · -- two emitted groups live in different directories
      have hpw : entries.Pairwise (fun e1 e2 => e1.1 ≠ e2.1) :=
        List.pairwise_map.mp hnodup
      have hsingle : ∀ (x : String × List String) (gx : FileGroup),
          gx ∈ emitGroups [x] merged affinity → gx.Files = x.2 := by
        intro x gx hgx
        rw [mem_emitGroups_iff] at hgx
        obtain ⟨e, he, f0, t, hcase, hcond, hgdef⟩ := hgx
        rw [List.mem_singleton] at he
        subst he
        rw [hgdef]
      rw [hgroups, emitGroups]
      refine pairwise_filterMap_compat _ _ _ entries hpw ?_
      intro x hx y hy hxy gx gy hfx hfy p hpx hpy
      have hgx : gx.Files = x.2 :=
        hsingle x gx (List.mem_filterMap.mpr ⟨x, List.mem_singleton_self x, hfx⟩)
      have hgy : gy.Files = y.2 :=
        hsingle y gy (List.mem_filterMap.mpr ⟨y, List.mem_singleton_self y, hfy⟩)
      have h1 : goDir p = x.1 := hdir x hx p (hgx ▸ hpx)
      have h2 : goDir p = y.1 := hdir y hy p (hgy ▸ hpy)
      exact hxy (by rw [← h1, h2])
    · -- two singleton groups carry distinct paths
      have hnd : ((files.filter (fun fc => !grouped.contains fc.Path)).map
          (fun fc => fc.Path)).Nodup := by
        rw [List.nodup_iff_count_le_one]
        intro p
        by_cases hgr : p ∈ grouped
        · rw [List.count_eq_zero.mpr ?_]
          · omega
          · intro hmem
            rw [List.mem_map] at hmem
            obtain ⟨fc, hfc, hfp⟩ := hmem
            have hpred := (List.mem_filter.mp hfc).2
            rw [Bool.not_eq_true'] at hpred
            have hmem2 : grouped.contains fc.Path = true :=
              (contains_iff_mem_str grouped fc.Path).mpr (hfp ▸ hgr)
            rw [hpred] at hmem2
            cases hmem2
        · calc ((files.filter (fun fc => !grouped.contains fc.Path)).map
                (fun fc => fc.Path)).count p
              ≤ (files.map (fun fc => fc.Path)).count p :=
                ((List.filter_sublist files).map (fun fc => fc.Path)).count_le p
            _ ≤ 1 := hcount_le p hgr
      rw [List.pairwise_map]
      have hpwne : (files.filter (fun fc => !grouped.contains fc.Path)).Pairwise
          (fun fc1 fc2 => fc1.Path ≠ fc2.Path) := List.pairwise_map.mp hnd
      refine hpwne.imp ?_
      intro fc1 fc2 hne p hp1 hp2
      simp only [List.mem_singleton] at hp1 hp2
      exact hne (hp1 ▸ hp2 ▸ rfl)
    · -- an emitted group and a singleton are disjoint
      intro g hg s hs p hpg hps
      rw [List.mem_map] at hs
      obtain ⟨fc, hfc, hsdef⟩ := hs
      rw [← hsdef] at hps
      simp only [List.mem_singleton] at hps
      have hpred := (List.mem_filter.mp hfc).2
      rw [Bool.not_eq_true'] at hpred
      have hgr : p ∈ grouped := (hmem_grouped p).mpr ⟨g, hg, hpg⟩
      have hmem2 : grouped.contains fc.Path = true :=
        (contains_iff_mem_str grouped fc.Path).mpr (hps ▸ hgr)
      rw [hpred] at hmem2
      cases hmem2

/-- C1: `PreGroup` partitions the input paths — every output path is an
input path and vice versa, and the file sets of any two distinct output
groups are disjoint (so no path is lost and none lands in two groups). -/
theorem preGroup_partition (cs : ChangeSet) :
    (∀ p, (∃ g ∈ PreGroup cs, p ∈ g.Files) ↔ ∃ fc ∈ cs.Files, fc.Path = p) ∧
      (PreGroup cs).Pairwise (fun g h => ∀ p, p ∈ g.Files → p ∉ h.Files) := by
  by_cases hnil : cs.Files.length = 0
  · have hf : cs.Files = [] := List.length_eq_zero.mp hnil
    rw [PreGroup, if_pos hnil]
    constructor
    · intro p
      simp [hf]
    · exact List.Pairwise.nil
  · rw [PreGroup, if_neg hnil]
    exact preGroup_core cs.Files

/-! ### Name-affinity relabelling (C8) -/

/-- Directory-map entries are never empty. -/
theorem ne_nil_of_mem_dirGroupsOf (files : List FileChange) :
    ∀ e ∈ dirGroupsOf files, e.2 ≠ [] := by
  suffices h : ∀ gs : List (String × List String),
      (∀ e ∈ gs, e.2 ≠ []) →
      ∀ e ∈ files.foldl (fun gs fc => addToGroups gs (goDir fc.Path) fc.Path) gs,
        e.2 ≠ [] by
    exact h [] (by intro e he; cases he)
  have hstep : ∀ (gs : List (String × List String)) (d p : String),
      (∀ e ∈ gs, e.2 ≠ []) → ∀ e ∈ addToGroups gs d p, e.2 ≠ [] := by
    intro gs d p hgs
    induction gs with
    | nil =>
      intro e he
      simp only [addToGroups, List.mem_singleton] at he
      subst he
      simp
    | cons e0 rest ih =>
      obtain ⟨k, ps⟩ := e0
      intro e he
      by_cases hk : k = d
      · rw [show addToGroups ((k, ps) :: rest) d p = (k, ps ++ [p]) :: rest from by
          simp [addToGroups, hk]] at he
        rcases List.mem_cons.mp he with he | he
        · subst he; simp
        · exact hgs e (List.mem_cons_of_mem _ he)
      · rw [show addToGroups ((k, ps) :: rest) d p = (k, ps) :: addToGroups rest d p from by
          simp [addToGroups, hk]] at he
        rcases List.mem_cons.mp he with he | he
        · subst he
          exact hgs (k, ps) (List.mem_cons_self _ _)
        · exact ih (fun e2 he2 => hgs e2 (List.mem_cons_of_mem _ he2)) e he
  induction files with
  | nil => intro gs hgs; exact hgs
  | cons fc rest ih =>
    intro gs hgs
    exact ih _ (hstep gs (goDir fc.Path) fc.Path hgs)

/-- Two directory-map entries with the same key are the same entry. -/
theorem eq_of_mem_dirGroupsOf_same_key (files : List FileChange)
    (e1 e2 : String × List String) (h1 : e1 ∈ dirGroupsOf files)
    (h2 : e2 ∈ dirGroupsOf files) (hk : e1.1 = e2.1) : e1 = e2 :=
  List.inj_on_of_nodup_map (keys_nodup_dirGroupsOf files) h1 h2 hk

/-- A `singletons` reason is never a `name affinity` reason. -/
theorem singletons_ne_affinity (a b : String) :
    "singletons " ++ a ≠ "name affinity: " ++ b := by
  intro h
  have h2 : ("singletons " ++ a).data.head? = ("name affinity: " ++ b).data.head? := by
    rw [h]
  rw [String.data_append, String.data_append] at h2
  have e1 : ("singletons ").data = 's' :: "ingletons ".data := rfl
  have e2 : ("name affinity: ").data = 'n' :: "ame affinity: ".data := rfl
  rw [e1, e2] at h2
  simp at h2

/-- A `same package` reason is never a `name affinity` reason. -/
theorem samepkg_ne_affinity (a b : String) :
    "same package: " ++ a ≠ "name affinity: " ++ b := by
  intro h
  have h2 : ("same package: " ++ a).data.head? = ("name affinity: " ++ b).data.head? := by
    rw [h]
  rw [String.data_append, String.data_append] at h2
  have e1 : ("same package: ").data = 's' :: "ame package: ".data := rfl
  have e2 : ("name affinity: ").data = 'n' :: "ame affinity: ".data := rfl
  rw [e1, e2] at h2
  simp at h2

/-- The `merged` marks of one directory, characterized: a file is marked
exactly when its extension-stripped stem ends in `_test` and its
`_test`-stripped stem is some member's stripped stem. -/
theorem mergedOfEntry_ne_nil_iff (fs : List String) :
    mergedOfEntry fs ≠ [] ↔
      ∃ f ∈ fs, goHasSuffix (rawStem (goBase f)) "_test" = true ∧
        ∃ f2 ∈ fs, strippedStem (goBase f2) = goTrimSuffix (rawStem (goBase f)) "_test" := by
  rw [mergedOfEntry]
  constructor
  · intro h
    rcases List.exists_mem_of_ne_nil _ h with ⟨f, hf⟩
    have hmem := (List.mem_filter.mp hf).1
    have hpred := (List.mem_filter.mp hf).2
    simp only [Bool.and_eq_true] at hpred
    refine ⟨f, hmem, hpred.1, ?_⟩
    have := (contains_iff_mem_str _ _).mp hpred.2
    rw [basesOf] at this
    rw [List.mem_map] at this
    obtain ⟨f2, hf2, hs⟩ := this
    exact ⟨f2, hf2, hs⟩
  · rintro ⟨f, hf, hsuf, f2, hf2, hstem⟩ hcon
    have hmemf : f ∈ mergedOfEntry fs := by
      rw [mergedOfEntry]
      refine List.mem_filter.mpr ⟨hf, ?_⟩
      show (goHasSuffix (rawStem (goBase f)) "_test" &&
        (basesOf fs).contains (goTrimSuffix (rawStem (goBase f)) "_test")) = true
      rw [Bool.and_eq_true]
      refine ⟨hsuf, (contains_iff_mem_str _ _).mpr ?_⟩
      rw [basesOf, List.mem_map]
      exact ⟨f2, hf2, hstem⟩
    rw [mergedOfEntry, hcon] at hmemf
    cases hmemf

/-- C8 counterexample: a directory holding only a lone `_test` file is
still relabelled `name affinity` — the `bases` set is built from
`_test`-stripped stems, so the test file matches its own stem even with no
source file beside it. -/
theorem lone_test_file_marks_affinity :
    PreGroup { Files := [{ Path := "pkg/x_test.go", type := ChangeType.Modified }] } =
      [{ Files := ["pkg/x_test.go"], Reason := "name affinity: pkg",
         Diffs := "", CommitMessage := "" }] := by
  decide

/-- C8 amended: a directory's emitted group carries reason
`"name affinity: <dir>"` exactly when some file of the directory has an
extension-stripped stem ending in `_test` whose `_test`-stripped stem
equals the stripped stem of some (possibly the same) file of the
directory; the self-match means a lone `_test` file also marks its
directory. -/
theorem preGroup_affinity_reason (cs : ChangeSet) (d : String) (fs : List String)
    (h : (d, fs) ∈ dirGroupsOf cs.Files) :
    (∃ g ∈ PreGroup cs, g.Files = fs ∧ g.Reason = "name affinity: " ++ d) ↔
      ∃ f ∈ fs, goHasSuffix (rawStem (goBase f)) "_test" = true ∧
        ∃ f2 ∈ fs, strippedStem (goBase f2) = goTrimSuffix (rawStem (goBase f)) "_test" := by
  have hfilesne : cs.Files ≠ [] := by
    intro hcon
    rw [hcon] at h
    cases h
  have hlen : ¬cs.Files.length = 0 := fun hl => hfilesne (List.length_eq_zero.mp hl)
  have hfsne : fs ≠ [] := ne_nil_of_mem_dirGroupsOf cs.Files (d, fs) h
  obtain ⟨f0, t, hfs⟩ : ∃ f0 t, fs = f0 :: t := by
    cases hc : fs with
    | nil => exact absurd hc hfsne
    | cons f0 t => exact ⟨f0, t, rfl⟩
  rw [← mergedOfEntry_ne_nil_iff]
  rw [PreGroup, if_neg hlen]
  constructor
  · rintro ⟨g, hg, hgf, hgr⟩
    rcases List.mem_append.mp hg with hg | hg
    · rw [mem_emitGroups_iff] at hg
      obtain ⟨e, he, fe0, te, hecase, hcond, hgdef⟩ := hg
      have hefs : e.2 = fs := by rw [hgdef] at hgf; exact hgf
      have hkey : e.1 = d := by
        have h1 : goDir f0 = e.1 :=
          dir_of_mem_dirGroupsOf cs.Files e he f0 (by rw [hefs, hfs]; exact List.mem_cons_self _ _)
        have h2 : goDir f0 = d :=
          dir_of_mem_dirGroupsOf cs.Files (d, fs) h f0 (by rw [hfs]; exact List.mem_cons_self _ _)
        rw [← h1, h2]
      have heq : e = (d, fs) := by
        cases e with
        | mk k l => simp only at hefs hkey; rw [hefs, hkey]
      have hreason : g.Reason =
          if (affinityDirsOf (dirGroupsOf cs.Files)).contains d then "name affinity: " ++ d
          else "same package: " ++ d := by
        rw [hgdef, heq]
      by_cases haff : (affinityDirsOf (dirGroupsOf cs.Files)).contains d = true
      · have hd : d ∈ affinityDirsOf (dirGroupsOf cs.Files) :=
          (contains_iff_mem_str _ _).mp haff
        rw [affinityDirsOf, List.mem_map] at hd
        obtain ⟨e2, he2, hke2⟩ := hd
        have he2mem := (List.mem_filter.mp he2).1
        have he2pred := (List.mem_filter.mp he2).2
        have he2eq : e2 = (d, fs) :=
          eq_of_mem_dirGroupsOf_same_key cs.Files e2 (d, fs) he2mem h hke2
        rw [he2eq] at he2pred
        rw [Bool.not_eq_true'] at he2pred
        intro hcon
        rw [show ((d, fs) : String × List String).2 = fs from rfl, hcon] at he2pred
        cases he2pred
      · rw [hreason, if_neg haff] at hgr
        exact absurd hgr (samepkg_ne_affinity d d)
    · rw [List.mem_map] at hg
      obtain ⟨fc, hfc, hgdef⟩ := hg
      rw [← hgdef] at hgr
      exact absurd hgr (singletons_ne_affinity (goBase fc.Path) d)
  · intro hne
    have haffmem : d ∈ affinityDirsOf (dirGroupsOf cs.Files) := by
      rw [affinityDirsOf, List.mem_map]
      refine ⟨(d, fs), List.mem_filter.mpr ⟨h, ?_⟩, rfl⟩
      rw [Bool.not_eq_true']
      rw [show ((d, fs) : String × List String).2 = fs from rfl]
      cases hc : (mergedOfEntry fs).isEmpty
      · rfl
      · rw [List.isEmpty_iff] at hc
        exact absurd hc hne
    have hcond : (fs.length > 1 || (mergedOf (dirGroupsOf cs.Files)).contains f0) = true := by
      by_cases hl : fs.length > 1
      · simp [hl]
      · have hfs1 : fs = [f0] := by
          have hlen2 : t.length = 0 := by
            rw [hfs] at hl
            simp only [List.length_cons, gt_iff_lt] at hl
            omega
          rw [hfs, List.length_eq_zero.mp hlen2]
        rcases List.exists_mem_of_ne_nil _ hne with ⟨f, hf⟩
        have hff0 : f = f0 := by
          have := (List.mem_filter.mp (hf : f ∈ mergedOfEntry fs)).1
          rw [hfs1, List.mem_singleton] at this
          exact this
        have hmerged : f0 ∈ mergedOf (dirGroupsOf cs.Files) := by
          rw [mergedOf, List.mem_flatten]
          exact ⟨mergedOfEntry fs,
            List.mem_map.mpr ⟨(d, fs), h, rfl⟩, hff0 ▸ hf⟩
        have hc : (mergedOf (dirGroupsOf cs.Files)).contains f0 = true :=
          (contains_iff_mem_str _ _).mpr hmerged
        rw [hc, Bool.or_true]
    refine ⟨{ Files := fs
              Reason :=
                if (affinityDirsOf (dirGroupsOf cs.Files)).contains d
                then "name affinity: " ++ d
                else "same package: " ++ d
              Diffs := ""
              CommitMessage := "" },
      List.mem_append.mpr (Or.inl ?_), rfl, ?_⟩
    · rw [mem_emitGroups_iff]
      exact ⟨(d, fs), h, f0, t, hfs, by rw [show ((d, fs) : String × List String).2 = fs from rfl]; exact hcond, rfl⟩
    · simp only
      rw [if_pos ((contains_iff_mem_str _ _).mpr haffmem)]

/-- Witness for `preGroup_affinity_reason`: `pkg/x.go` next to
`pkg/x_test.go` yields the affinity-relabelled group. -/
theorem preGroup_affinity_reason_witness :
    ∃ g ∈ PreGroup { Files := [{ Path := "pkg/x.go", type := ChangeType.Modified },
                               { Path := "pkg/x_test.go", type := ChangeType.Modified }] },
      g.Files = ["pkg/x.go", "pkg/x_test.go"] ∧ g.Reason = "name affinity: " ++ "pkg" :=
  (preGroup_affinity_reason
      { Files := [{ Path := "pkg/x.go", type := ChangeType.Modified },
                  { Path := "pkg/x_test.go", type := ChangeType.Modified }] }
      "pkg" ["pkg/x.go", "pkg/x_test.go"] (by decide)).mpr (by decide)

end GitPulse
